import Mathlib

/-!
# Verification of the D3 emissions visualization pipeline

Shallow embedding of `src/P3/D3_Visualization_Web_App/main.js`.

The program loads a JSON array of quarterly greenhouse-gas emission records,
derives selector options, and on each selection change filters the records,
parses their timestamps, deduplicates by (country, timestamp), and redraws a
multi-line SVG chart.

Modelling conventions:
* JS strings are `String`, JS numbers that hold emission values are `ℚ`
  (the record field stores the value of `+d.emissions`; the numeric coercion
  itself is not the subject of any claim), timestamps (`Date.getTime()`
  values) are `ℤ` milliseconds since the Unix epoch.
* `d3.utcParse("%Y-%m-%dT%H:%M:%S.%L")` is modelled by `parseDate`, which
  follows d3-time-format's parser for that fixed specifier: `%Y` consumes
  exactly four digits, `%m`/`%d`/`%H`/`%M`/`%S` one or two digits greedily,
  `%L` one to three digits, the literal characters must match exactly, the
  whole string must be consumed, and the parsed fields are assembled with
  `Date.UTC` semantics (out-of-range months/days/hours carry over
  arithmetically).  Failure (d3 returns `null`) is `none`.
* DOM side effects are modelled by returning a description of what gets
  drawn (`ChartOut` for the chart group, a list of `(country, color)` pairs
  for the legend).  The `TypeError` thrown when `d.date.getTime()` is
  invoked on a `null` date inside `d3.rollup` is modelled by
  `Except.error ()`.
-/

set_option maxRecDepth 4096

namespace P3

/-- One row of `quarterly_greenhouse_long.json`, as consumed by `main.js`.
Field names follow the JSON keys `Country`, `Gas Type`, `Industry`,
`Seasonal Adjustment`, `date`, `emissions`. -/
structure EmissionRecord where
  country : String
  gasType : String
  industry : String
  seasonalAdjustment : String
  date : String
  emissions : ℚ
deriving DecidableEq

/-! ## The timestamp parser: `d3.utcParse("%Y-%m-%dT%H:%M:%S.%L")` -/

/-- Greedily consume up to `fuel` further digit characters, accumulating the
decimal value (the leading digit has already been consumed). -/
def grabDigits : Nat → List Char → Nat → Nat × List Char
  | 0, cs, acc => (acc, cs)
  | _ + 1, [], acc => (acc, [])
  | fuel + 1, c :: rest, acc =>
    if c.isDigit then grabDigits fuel rest (acc * 10 + (c.toNat - 48))
    else (acc, c :: rest)

/-- Parse one to `maxd` digits (d3's `\d{1,2}` / `\d{1,3}` specifier
matchers); fails when the first character is not a digit. -/
def parseNum (maxd : Nat) (cs : List Char) : Option (Nat × List Char) :=
  match cs with
  | [] => none
  | c :: rest =>
    if c.isDigit then some (grabDigits (maxd - 1) rest (c.toNat - 48)) else none

/-- Parse exactly four digits (d3's `%Y` matcher, `\d{4}`). -/
def parseYear4 (cs : List Char) : Option (Nat × List Char) :=
  match cs with
  | a :: b :: c :: d :: rest =>
    if a.isDigit && b.isDigit && c.isDigit && d.isDigit then
      some ((((a.toNat - 48) * 10 + (b.toNat - 48)) * 10 + (c.toNat - 48)) * 10
              + (d.toNat - 48), rest)
    else none
  | _ => none

/-- Match one literal character of the format string. -/
def parseLit (ch : Char) (cs : List Char) : Option (List Char) :=
  match cs with
  | [] => none
  | c :: rest => if c == ch then some rest else none

/-- Days from the Unix epoch to civil date `(y, m, d)` with `m ∈ [1,12]`
(`d` may be out of range; it carries over arithmetically, as in
`Date.UTC`). -/
def daysFromCivil (y m d : ℤ) : ℤ :=
  let y1 : ℤ := if m ≤ 2 then y - 1 else y
  let era : ℤ := Int.fdiv y1 400
  let yoe : ℤ := y1 - era * 400
  let mp : ℤ := if 2 < m then m - 3 else m + 9
  let doy : ℤ := Int.fdiv (153 * mp + 2) 5 + d - 1
  let doe : ℤ := yoe * 365 + Int.fdiv yoe 4 - Int.fdiv yoe 100 + doy
  era * 146097 + doe - 719468

/-- Model of `Date.UTC(y, m0, d, h, mi, s, ms)` in milliseconds; `m0` is the 0-based
month and may be out of range (it carries into the year, as in JS). -/
def utcMillis (y m0 d h mi s ms : ℤ) : ℤ :=
  let y1 : ℤ := y + Int.fdiv m0 12
  let m1 : ℤ := Int.emod m0 12 + 1
  daysFromCivil y1 m1 d * 86400000 + h * 3600000 + mi * 60000 + s * 1000 + ms

/-- Model of `const parseDate = d3.utcParse("%Y-%m-%dT%H:%M:%S.%L")` — returns the
`getTime()` value of the parsed UTC date, or `none` where d3 returns
`null` (format mismatch or trailing characters). -/
def parseDate (s : String) : Option ℤ := do
  let cs := s.toList
  let (y, cs) ← parseYear4 cs
  let cs ← parseLit '-' cs
  let (mo, cs) ← parseNum 2 cs
  let cs ← parseLit '-' cs
  let (d, cs) ← parseNum 2 cs
  let cs ← parseLit 'T' cs
  let (h, cs) ← parseNum 2 cs
  let cs ← parseLit ':' cs
  let (mi, cs) ← parseNum 2 cs
  let cs ← parseLit ':' cs
  let (sec, cs) ← parseNum 2 cs
  let cs ← parseLit '.' cs
  let (ms, cs) ← parseNum 3 cs
  if cs.isEmpty then
    some (utcMillis (y : ℤ) ((mo : ℤ) - 1) (d : ℤ) (h : ℤ) (mi : ℤ) (sec : ℤ) (ms : ℤ))
  else none

/-! ## Selector state: `getUniqueValues` -/

/-- Insertion-order deduplication keyed by `k`, with an accumulator of keys
already seen — the behaviour of inserting into a JS `Set` / d3 `InternMap`
while iterating. -/
def dedupByKeyAux {α β : Type} (k : α → β) [BEq β] (seen : List β) : List α → List α
  | [] => []
  | x :: xs =>
    if seen.contains (k x) then dedupByKeyAux k seen xs
    else x :: dedupByKeyAux k (k x :: seen) xs

/-- First-occurrence-wins deduplication by key, in first-seen order. -/
def dedupByKey {α β : Type} (k : α → β) [BEq β] (l : List α) : List α :=
  dedupByKeyAux k [] l

/-- Model of `Array.from(new Set(l))`: drop duplicates, keep first-seen order. -/
def dedupFirst {α : Type} [BEq α] (l : List α) : List α :=
  dedupByKey (fun a => a) l

/-- Model of `getUniqueValues(data, key)` from `main.js`:
`Array.from(new Set(data.map(d => d[key])))`.  The JS field-name string is
modelled as a field selector. -/
def getUniqueValues (data : List EmissionRecord) (key : EmissionRecord → String) :
    List String :=
  dedupFirst (data.map key)

/-! ## The color scale -/

/-- The palette `d3.schemeTableau10`. -/
def schemeTableau10 : List String :=
  ["#4e79a7", "#f28e2c", "#e15759", "#76b7b2", "#59a14f",
   "#edc948", "#b07aa1", "#ff9da7", "#9c755f", "#bab0ab"]

/-- Model of `d3.scaleOrdinal(d3.schemeTableau10).domain(countries)`: an input found
in the domain gets the range entry at its domain index modulo the range
length; an input not in the domain would be appended to the domain by d3's
implicit-domain rule, receiving the next color (that branch is unreachable
for the regions the page ever draws, which all come from the domain). -/
def color (domain : List String) (c : String) : String :=
  match domain.findIdx? (fun x => x == c) with
  | some i => schemeTableau10.getD (i % 10) ""
  | none => schemeTableau10.getD (domain.length % 10) ""

/-! ## The filter/aggregate engine inside `updateVisualization` -/

/-- The filter predicate of `updateVisualization` (lines 121–126 of
`main.js`). -/
def passesFilter (selectedCountries : List String) (selectedGas selectedIndustry : String)
    (r : EmissionRecord) : Bool :=
  selectedCountries.contains r.country &&
  r.gasType == selectedGas &&
  r.industry == selectedIndustry &&
  r.seasonalAdjustment == "Seasonally Adjusted"

/-- The object built by the `.map` step: `{ country, date: parseDate(d.date),
emissions: +d.emissions }`.  `date` is `none` where `parseDate` returned
`null`. -/
structure RawPoint where
  country : String
  date : Option ℤ
  emissions : ℚ
deriving DecidableEq

/-- A filtered point whose date parsed. -/
structure Point where
  country : String
  date : ℤ
  emissions : ℚ
deriving DecidableEq

def mkRaw (r : EmissionRecord) : RawPoint :=
  ⟨r.country, parseDate r.date, r.emissions⟩

/-- Model of `const filtered = emissionData.filter(...).map(...)`. -/
def filtered (data : List EmissionRecord) (selectedCountries : List String)
    (selectedGas selectedIndustry : String) : List RawPoint :=
  (data.filter (passesFilter selectedCountries selectedGas selectedIndustry)).map mkRaw

def toPoint (p : RawPoint) : Option Point :=
  p.date.map fun t => ⟨p.country, t, p.emissions⟩

/-- The elements of `filtered` whose date parsed, in input order.  When every
date parsed (the only case in which `d3.rollup` does not throw), this is
exactly `filtered`. -/
def validPoints (data : List EmissionRecord) (selectedCountries : List String)
    (selectedGas selectedIndustry : String) : List Point :=
  (filtered data selectedCountries selectedGas selectedIndustry).filterMap toPoint

/-- Model of `Array.from(d3.rollup(filtered, v => v[0], d => d.country,
d => d.date.getTime()), ...)`: group by country in first-encounter order;
within a country keep, for each distinct `getTime()` value, the first point
encountered, in first-encounter order of the timestamps. -/
def filteredUnique (pts : List Point) : List (String × List Point) :=
  (dedupFirst (pts.map (fun p => p.country))).map
    (fun c => (c, dedupByKey (fun p => p.date) (pts.filter (fun p => p.country == c))))

/-- The filter/aggregate step of `updateVisualization` (its contract is the
spec's `compute`).  `d3.rollup` evaluates `d.date.getTime()` on every
element of `filtered`; when some date is `null` this throws a `TypeError`,
modelled as `Except.error ()`. -/
def computeSeries (data : List EmissionRecord) (selectedCountries : List String)
    (selectedGas selectedIndustry : String) : Except Unit (List (String × List Point)) :=
  if (filtered data selectedCountries selectedGas selectedIndustry).all
      (fun p => p.date.isSome) then
    .ok (filteredUnique (validPoints data selectedCountries selectedGas selectedIndustry))
  else
    .error ()

/-! ## The renderer's scales -/

/-- One step of `d3.extent`'s scan. -/
def extentStep (acc : Option (ℤ × ℤ)) (v : ℤ) : Option (ℤ × ℤ) :=
  match acc with
  | none => some (v, v)
  | some (mn, mx) => some (if v < mn then v else mn, if mx < v then v else mx)

/-- Model of `d3.extent(values)` over the (always comparable) timestamps. -/
def extent (l : List ℤ) : Option (ℤ × ℤ) :=
  l.foldl extentStep none

/-- One step of `d3.max`'s scan. -/
def maxStep (acc : Option ℚ) (v : ℚ) : Option ℚ :=
  match acc with
  | none => some v
  | some m => some (if m < v then v else m)

/-- Model of `d3.max(values)` over the emission values. -/
def maxQ (l : List ℚ) : Option ℚ :=
  l.foldl maxStep none

/-- Ten to an integer power, in `ℚ`. -/
def pow10 (p : ℤ) : ℚ :=
  if 0 ≤ p then ((10 : ℚ)) ^ p.toNat else 1 / ((10 : ℚ)) ^ (-p).toNat

/-- Structural base-10 logarithm on `ℕ` (fuelled so it kernel-reduces). -/
def log10Aux : Nat → Nat → Nat
  | 0, _ => 0
  | fuel + 1, n => if n < 10 then 0 else log10Aux fuel (n / 10) + 1

/-- Computes `⌊log10 q⌋` for `q > 0` (junk elsewhere); the exact-arithmetic
counterpart of `Math.floor(Math.log(step) / Math.LN10)`. -/
def log10floor (q : ℚ) : ℤ :=
  if 1 ≤ q then (log10Aux (Int.toNat ⌊q⌋) (Int.toNat ⌊q⌋) : ℤ)
  else
    let r := q⁻¹
    let n := Int.toNat ⌈r⌉
    let m := log10Aux n n
    if r ≤ (10 : ℚ) ^ m then -(m : ℤ) else -((m : ℤ) + 1)

/-- Model of `d3.tickIncrement(start, stop, count)` with the default `count = 10`
used by `scale.nice()`.  Exact-rational counterpart of the float code: the
comparisons of `error` against `√50`, `√10`, `√2` are decided by squaring.
Returns `none` where the JS value is `0`, `NaN` or `±Infinity` (`step ≤ 0`),
which makes `scale.nice()` stop without committing a new domain. -/
def tickIncrement (start stop : ℚ) : Option ℚ :=
  let step : ℚ := (stop - start) / 10
  if step ≤ 0 then none
  else
    let p : ℤ := log10floor step
    let err : ℚ := step / pow10 p
    let factor : ℚ :=
      if 50 ≤ err * err then 10 else if 10 ≤ err * err then 5
      else if 2 ≤ err * err then 2 else 1
    some (if 0 ≤ p then factor * pow10 p else -(pow10 (-p)) / factor)

/-- The loop body of `scale.nice()` (d3-scale, `maxIter = 10`): returns
`some (start, stop)` when two successive tick increments agree (the branch
that commits the new domain) and `none` when the iteration budget runs out
or the increment degenerates (the domain is then left unchanged). -/
def niceRec : Nat → ℚ → ℚ → Option ℚ → Option (ℚ × ℚ)
  | 0, _, _, _ => none
  | fuel + 1, start, stop, prestep =>
    match tickIncrement start stop with
    | none => none
    | some step =>
      if prestep = some step then some (start, stop)
      else if 0 < step then
        niceRec fuel ((⌊start / step⌋ : ℤ) * step) ((⌈stop / step⌉ : ℤ) * step) (some step)
      else if step < 0 then
        niceRec fuel ((⌈start * step⌉ : ℤ) / step) ((⌊stop * step⌋ : ℤ) / step) (some step)
      else none

/-- Model of the domain produced by `d3.scaleLinear().domain([d0, d1]).nice()` (with the
default tick count 10).  Mirrors d3-scale's `nice`: the endpoints are
swapped while iterating when the domain is descending, and written back in
their original positions only when the loop converges. -/
def niceDomain (d0 d1 : ℚ) : ℚ × ℚ :=
  if d1 < d0 then
    match niceRec 10 d1 d0 none with
    | some (s, e) => (e, s)
    | none => (d0, d1)
  else
    match niceRec 10 d0 d1 none with
    | some (s, e) => (s, e)
    | none => (d0, d1)

/-! ## The renderer -/

/-- One `<path>` drawn by the line layer, with its stroke color, its
(sorted) data points, and the `<title>` tooltip text. -/
structure LinePath where
  country : String
  stroke : String
  points : List Point
  tooltip : String
deriving DecidableEq

/-- What `updateVisualization` leaves inside the chart group: whether the
previous contents were removed, the axis scale domains (present only when
axes were drawn), and the line paths. -/
structure ChartOut where
  cleared : Bool
  xDomain : Option (ℤ × ℤ)
  yDomain : Option (ℚ × ℚ)
  axesDrawn : Bool
  lines : List LinePath
deriving DecidableEq

/-- Model of `values.sort((a, b) => a.date - b.date)`: a stable ascending sort by
timestamp (insertion sort; within one series the timestamps are distinct
after deduplication, so any correct sort produces this list). -/
def orderedInsert (a : Point) : List Point → List Point
  | [] => [a]
  | b :: l => if a.date ≤ b.date then a :: b :: l else b :: orderedInsert a l

def sortPoints : List Point → List Point
  | [] => []
  | a :: l => orderedInsert a (sortPoints l)

/-- Model of `updateLegend(selectedCountries)`: one legend row per selected country
with its swatch color from the startup color scale. -/
def updateLegend (countries : List String) (selectedCountries : List String) :
    List (String × String) :=
  selectedCountries.map fun c => (c, color countries c)

/-- Model of `updateVisualization()`, as a function of the loaded data and the live
selector state.  Returns the legend rows (updated before the filter runs)
and either the drawn chart contents or `Except.error ()` for the
`TypeError` thrown on an unparseable date.  Note the chart group is cleared
only after the rollup, so nothing is cleared on the error path. -/
def updateVisualization (data : List EmissionRecord) (selectedCountries : List String)
    (selectedGas selectedIndustry : String) :
    List (String × String) × Except Unit ChartOut :=
  let countries := getUniqueValues data (fun r => r.country)
  let legend := updateLegend countries selectedCountries
  (legend,
    match computeSeries data selectedCountries selectedGas selectedIndustry with
    | .error e => .error e
    | .ok filteredUnique =>
      if filteredUnique.isEmpty then
        .ok ⟨true, none, none, false, []⟩
      else
        let allPoints := (filteredUnique.map (fun s => s.2)).flatten
        let xd := extent (allPoints.map (fun p => p.date))
        let ym := maxQ (allPoints.map (fun p => p.emissions))
        .ok ⟨true, xd, ym.map (fun m => niceDomain 0 m), true,
          filteredUnique.map (fun s =>
            ⟨s.1, color countries s.1, sortPoints s.2, s.1⟩)⟩)

/-- All data points attached to the drawn line paths. -/
def allLinePoints (out : ChartOut) : List Point :=
  (out.lines.map (fun l => l.points)).flatten

/-! ## The data loader -/

/-- The local relative path `./Data/quarterly_greenhouse_long.json`. -/
def localPath : String := "./Data/quarterly_greenhouse_long.json"

/-- The fixed remote static URL used on GitHub Pages. -/
def ghPagesPath : String :=
  "https://mattzidell.github.io/DSC_209_P3/P3/D3_Visualization_Web_App/Data/quarterly_greenhouse_long.json"

/-- Model of `host === 'localhost' || host === '127.0.0.1' || host === ''`. -/
def isLocalhost (host : String) : Bool :=
  host == "localhost" || host == "127.0.0.1" || host == ""

/-- JS `String.prototype.endsWith`. -/
def endsWith (s suffix : String) : Bool :=
  suffix.toList.isSuffixOf s.toList

/-- Model of `const dataUrl = (host.endsWith('github.io') && !isLocalhost) ?
ghPagesPath : localPath`. -/
def dataUrl (host : String) : String :=
  if endsWith host "github.io" && !isLocalhost host then ghPagesPath else localPath

/-- Outcome of `await fetch(dataUrl)` followed by `await response.json()`:
either the decoded record array, or any failure (network error or
malformed JSON body), which in the source lands in the `catch` block. -/
inductive FetchOutcome where
  | success (records : List EmissionRecord)
  | failure
deriving DecidableEq

/-- What `loadEmissionData` produces: the records handed to the caller, and
whether `console.error` was invoked. -/
structure LoadResult where
  records : List EmissionRecord
  loggedError : Bool
deriving DecidableEq

/-- Model of `loadEmissionData()`: returns the parsed records on success; on any
failure logs the error and returns `[]`.  The function is total — no
exception escapes to the caller. -/
def loadEmissionData : FetchOutcome → LoadResult
  | .success rs => ⟨rs, false⟩
  | .failure => ⟨[], true⟩

/-! ## Library: properties of first-occurrence deduplication -/

theorem contains_eq_true_iff {β : Type} [BEq β] [LawfulBEq β] (l : List β) (b : β) :
    l.contains b = true ↔ b ∈ l := by
  induction l with
  | nil => simp
  | cons x xs ih =>
    simp only [List.contains_cons, Bool.or_eq_true, beq_iff_eq, ih, List.mem_cons]

theorem mem_of_mem_dedupByKeyAux {α β : Type} (k : α → β) [BEq β] :
    ∀ (l : List α) (seen : List β) (y : α), y ∈ dedupByKeyAux k seen l → y ∈ l := by
  intro l
  induction l with
  | nil => intro seen y h; simp [dedupByKeyAux] at h
  | cons x xs ih =>
    intro seen y h
    rw [dedupByKeyAux] at h
    by_cases hx : seen.contains (k x)
    · rw [if_pos hx] at h
      exact List.mem_cons_of_mem x (ih seen y h)
    · rw [if_neg hx] at h
      rcases List.mem_cons.mp h with rfl | h
      · exact List.mem_cons_self _ _
      · exact List.mem_cons_of_mem x (ih _ y h)

theorem key_not_seen_of_mem_dedupByKeyAux {α β : Type} (k : α → β) [BEq β] [LawfulBEq β] :
    ∀ (l : List α) (seen : List β) (y : α), y ∈ dedupByKeyAux k seen l → k y ∉ seen := by
  intro l
  induction l with
  | nil => intro seen y h; simp [dedupByKeyAux] at h
  | cons x xs ih =>
    intro seen y h
    rw [dedupByKeyAux] at h
    by_cases hx : seen.contains (k x)
    · rw [if_pos hx] at h
      exact ih seen y h
    · rw [if_neg hx] at h
      rcases List.mem_cons.mp h with rfl | h
      · intro hmem
        exact hx ((contains_eq_true_iff seen (k y)).mpr hmem)
      · have := ih _ y h
        intro hmem
        exact this (List.mem_cons_of_mem _ hmem)

theorem keys_nodup_dedupByKeyAux {α β : Type} (k : α → β) [BEq β] [LawfulBEq β] :
    ∀ (l : List α) (seen : List β), ((dedupByKeyAux k seen l).map k).Nodup := by
  intro l
  induction l with
  | nil => intro seen; simp [dedupByKeyAux]
  | cons x xs ih =>
    intro seen
    rw [dedupByKeyAux]
    by_cases hx : seen.contains (k x)
    · rw [if_pos hx]; exact ih seen
    · rw [if_neg hx]
      rw [List.map_cons, List.nodup_cons]
      refine ⟨?_, ih _⟩
      intro hmem
      rcases List.mem_map.mp hmem with ⟨y, hy, hky⟩
      have := key_not_seen_of_mem_dedupByKeyAux k xs (k x :: seen) y hy
      exact this (hky ▸ List.mem_cons_self _ _)

theorem find?_eq_of_mem_dedupByKeyAux {α β : Type} (k : α → β) [BEq β] [LawfulBEq β] :
    ∀ (l : List α) (seen : List β) (y : α), y ∈ dedupByKeyAux k seen l →
      l.find? (fun z => k z == k y) = some y := by
  intro l
  induction l with
  | nil => intro seen y h; simp [dedupByKeyAux] at h
  | cons x xs ih =>
    intro seen y h
    rw [dedupByKeyAux] at h
    by_cases hx : seen.contains (k x)
    · rw [if_pos hx] at h
      have hky : k y ∉ seen := key_not_seen_of_mem_dedupByKeyAux k xs seen y h
      have hkx : k x ∈ seen := (contains_eq_true_iff seen (k x)).mp hx
      have hne : ¬ ((fun z => k z == k y) x) = true := by
        intro hbeq
        exact hky (beq_iff_eq.mp hbeq ▸ hkx)
      rw [List.find?_cons_of_neg xs hne]
      exact ih seen y h
    · rw [if_neg hx] at h
      rcases List.mem_cons.mp h with rfl | h
      · exact List.find?_cons_of_pos xs (beq_self_eq_true (k y))
      · have hky : k y ∉ (k x :: seen) := key_not_seen_of_mem_dedupByKeyAux k xs _ y h
        have hne : ¬ ((fun z => k z == k y) x) = true := by
          intro hbeq
          exact hky (beq_iff_eq.mp hbeq ▸ List.mem_cons_self _ _)
        rw [List.find?_cons_of_neg xs hne]
        exact ih _ y h

theorem dedupByKeyAux_ne_nil {α β : Type} (k : α → β) [BEq β] (x : α) (xs : List α) :
    dedupByKeyAux k [] (x :: xs) ≠ [] := by
  rw [dedupByKeyAux]
  simp

theorem mem_of_mem_dedupByKey {α β : Type} (k : α → β) [BEq β] (l : List α) (y : α)
    (h : y ∈ dedupByKey k l) : y ∈ l :=
  mem_of_mem_dedupByKeyAux k l [] y h

theorem find?_eq_of_mem_dedupByKey {α β : Type} (k : α → β) [BEq β] [LawfulBEq β]
    (l : List α) (y : α) (h : y ∈ dedupByKey k l) :
    l.find? (fun z => k z == k y) = some y :=
  find?_eq_of_mem_dedupByKeyAux k l [] y h

theorem keys_nodup_dedupByKey {α β : Type} (k : α → β) [BEq β] [LawfulBEq β] (l : List α) :
    ((dedupByKey k l).map k).Nodup :=
  keys_nodup_dedupByKeyAux k l []

/-- Running `find?` over a `filter` whose predicate is implied by the search
predicate coincides with `find?` over the combined predicate on the
original list. -/
theorem find?_filter_eq_find?_and {α : Type} (p q : α → Bool) :
    ∀ l : List α, (l.filter p).find? q = l.find? (fun a => p a && q a) := by
  intro l
  induction l with
  | nil => simp
  | cons x xs ih =>
    by_cases hp : p x
    · rw [List.filter_cons_of_pos hp]
      by_cases hq : q x
      · rw [List.find?_cons_of_pos _ hq, List.find?_cons_of_pos]
        simp [hp, hq]
      · rw [List.find?_cons_of_neg _ hq, List.find?_cons_of_neg, ih]
        simp [hp, hq]
    · rw [List.filter_cons_of_neg (by simpa using hp), ih, List.find?_cons_of_neg]
      simp [hp]

/-! ## Library: the insertion sort used to model `Array.prototype.sort` -/

theorem mem_orderedInsert (a b : Point) :
    ∀ l : List Point, b ∈ orderedInsert a l ↔ b = a ∨ b ∈ l := by
  intro l
  induction l with
  | nil => simp [orderedInsert]
  | cons c cs ih =>
    rw [orderedInsert]
    by_cases h : a.date ≤ c.date
    · rw [if_pos h]; simp
    · rw [if_neg h]
      simp only [List.mem_cons, ih]
      tauto

theorem mem_sortPoints (b : Point) : ∀ l : List Point, b ∈ sortPoints l ↔ b ∈ l := by
  intro l
  induction l with
  | nil => simp [sortPoints]
  | cons c cs ih =>
    rw [sortPoints, mem_orderedInsert]
    simp [ih]

theorem pairwise_orderedInsert (a : Point) (l : List Point)
    (h : l.Pairwise (fun x y => x.date ≤ y.date)) :
    (orderedInsert a l).Pairwise (fun x y => x.date ≤ y.date) := by
  induction l with
  | nil => simp [orderedInsert]
  | cons c cs ih =>
    rw [orderedInsert]
    rcases List.pairwise_cons.mp h with ⟨hc, hcs⟩
    by_cases hac : a.date ≤ c.date
    · rw [if_pos hac]
      refine List.pairwise_cons.mpr ⟨?_, h⟩
      intro b hb
      rcases List.mem_cons.mp hb with rfl | hb
      · exact hac
      · exact le_trans hac (hc b hb)
    · rw [if_neg hac]
      refine List.pairwise_cons.mpr ⟨?_, ih hcs⟩
      intro b hb
      rcases (mem_orderedInsert a b cs).mp hb with rfl | hb
      · exact le_of_not_le hac
      · exact hc b hb

theorem pairwise_sortPoints : ∀ l : List Point,
    (sortPoints l).Pairwise (fun x y => x.date ≤ y.date) := by
  intro l
  induction l with
  | nil => simp [sortPoints]
  | cons c cs ih => exact pairwise_orderedInsert c (sortPoints cs) ih

/-! ## Library: `d3.extent` and `d3.max` compute the extremes -/

theorem extent_loop {m0 M0 : ℤ} : ∀ (l : List ℤ) (m M : ℤ),
    l.foldl extentStep (some (m0, M0)) = some (m, M) →
    (m = m0 ∨ m ∈ l) ∧ (M = M0 ∨ M ∈ l) ∧ m ≤ m0 ∧ M0 ≤ M ∧ ∀ v ∈ l, m ≤ v ∧ v ≤ M := by
  intro l
  induction l generalizing m0 M0 with
  | nil =>
    intro m M h
    simp only [List.foldl_nil, Option.some.injEq, Prod.mk.injEq] at h
    obtain ⟨rfl, rfl⟩ := h
    simp
  | cons v rest ih =>
    intro m M h
    rw [List.foldl_cons] at h
    have hstep : extentStep (some (m0, M0)) v =
        some (if v < m0 then v else m0, if M0 < v then v else M0) := rfl
    rw [hstep] at h
    obtain ⟨h1, h2, h3, h4, h5⟩ := ih _ _ h
    have hm1 : (if v < m0 then v else m0) ≤ m0 := by split <;> omega
    have hm2 : (if v < m0 then v else m0) ≤ v := by split <;> omega
    have hM1 : M0 ≤ (if M0 < v then v else M0) := by split <;> omega
    have hM2 : v ≤ (if M0 < v then v else M0) := by split <;> omega
    refine ⟨?_, ?_, le_trans h3 hm1, le_trans hM1 h4, ?_⟩
    · rcases h1 with h1 | h1
      · by_cases hv : v < m0
        · rw [h1, if_pos hv]; exact Or.inr (List.mem_cons_self _ _)
        · rw [h1, if_neg hv]; exact Or.inl rfl
      · exact Or.inr (List.mem_cons_of_mem _ h1)
    · rcases h2 with h2 | h2
      · by_cases hv : M0 < v
        · rw [h2, if_pos hv]; exact Or.inr (List.mem_cons_self _ _)
        · rw [h2, if_neg hv]; exact Or.inl rfl
      · exact Or.inr (List.mem_cons_of_mem _ h2)
    · intro u hu
      rcases List.mem_cons.mp hu with rfl | hu
      · exact ⟨le_trans h3 hm2, le_trans hM2 h4⟩
      · exact h5 u hu

/-- The scan `d3.extent` returns the attained minimum and maximum. -/
theorem extent_spec (l : List ℤ) (m M : ℤ) (h : extent l = some (m, M)) :
    m ∈ l ∧ M ∈ l ∧ ∀ v ∈ l, m ≤ v ∧ v ≤ M := by
  cases l with
  | nil => simp [extent] at h
  | cons v rest =>
    rw [extent, List.foldl_cons] at h
    have hstep : extentStep none v = some (v, v) := rfl
    rw [hstep] at h
    obtain ⟨h1, h2, h3, h4, h5⟩ := extent_loop rest m M h
    refine ⟨?_, ?_, ?_⟩
    · rcases h1 with rfl | h1
      · exact List.mem_cons_self _ _
      · exact List.mem_cons_of_mem _ h1
    · rcases h2 with rfl | h2
      · exact List.mem_cons_self _ _
      · exact List.mem_cons_of_mem _ h2
    · intro u hu
      rcases List.mem_cons.mp hu with rfl | hu
      · exact ⟨h3, h4⟩
      · exact h5 u hu

theorem maxQ_loop {q0 : ℚ} : ∀ (l : List ℚ) (q : ℚ),
    l.foldl maxStep (some q0) = some q →
    (q = q0 ∨ q ∈ l) ∧ q0 ≤ q ∧ ∀ v ∈ l, v ≤ q := by
  intro l
  induction l generalizing q0 with
  | nil =>
    intro q h
    simp only [List.foldl_nil, Option.some.injEq] at h
    simp [h.symm]
  | cons v rest ih =>
    intro q h
    rw [List.foldl_cons] at h
    have hstep : maxStep (some q0) v = some (if q0 < v then v else q0) := rfl
    rw [hstep] at h
    obtain ⟨h1, h2, h3⟩ := ih _ h
    have hq1 : q0 ≤ (if q0 < v then v else q0) := by
      by_cases hv : q0 < v
      · rw [if_pos hv]; exact le_of_lt hv
      · rw [if_neg hv]
    have hq2 : v ≤ (if q0 < v then v else q0) := by
      by_cases hv : q0 < v
      · rw [if_pos hv]
      · rw [if_neg hv]; exact le_of_not_lt hv
    refine ⟨?_, le_trans hq1 h2, ?_⟩
    · rcases h1 with h1 | h1
      · by_cases hv : q0 < v
        · rw [h1, if_pos hv]; exact Or.inr (List.mem_cons_self _ _)
        · rw [h1, if_neg hv]; exact Or.inl rfl
      · exact Or.inr (List.mem_cons_of_mem _ h1)
    · intro u hu
      rcases List.mem_cons.mp hu with rfl | hu
      · exact le_trans hq2 h2
      · exact h3 u hu

/-- The scan `d3.max` returns the attained maximum. -/
theorem maxQ_spec (l : List ℚ) (q : ℚ) (h : maxQ l = some q) :
    q ∈ l ∧ ∀ v ∈ l, v ≤ q := by
  cases l with
  | nil => simp [maxQ] at h
  | cons v rest =>
    rw [maxQ, List.foldl_cons] at h
    have hstep : maxStep none v = some v := rfl
    rw [hstep] at h
    obtain ⟨h1, h2, h3⟩ := maxQ_loop rest q h
    refine ⟨?_, ?_⟩
    · rcases h1 with rfl | h1
      · exact List.mem_cons_self _ _
      · exact List.mem_cons_of_mem _ h1
    · intro u hu
      rcases List.mem_cons.mp hu with rfl | hu
      · exact h2
      · exact h3 u hu

/-! ## Library: `scale.nice()` keeps a zero endpoint and only widens -/

theorem niceRec_zero_start : ∀ (fuel : Nat) (stop : ℚ) (pres : Option ℚ) (s e : ℚ),
    niceRec fuel 0 stop pres = some (s, e) → s = 0 ∧ stop ≤ e := by
  intro fuel
  induction fuel with
  | zero => intro stop pres s e h; simp [niceRec] at h
  | succ fuel ih =>
    intro stop pres s e h
    rw [niceRec] at h
    cases hti : tickIncrement 0 stop with
    | none => rw [hti] at h; simp at h
    | some step =>
      rw [hti] at h
      dsimp only at h
      by_cases hpre : pres = some step
      · rw [if_pos hpre] at h
        obtain ⟨hs, he⟩ := Prod.mk.injEq .. ▸ Option.some.injEq .. ▸ h
        exact ⟨hs.symm, le_of_eq he⟩
      · rw [if_neg hpre] at h
        by_cases hpos : 0 < step
        · rw [if_pos hpos] at h
          have h0 : ((⌊(0 : ℚ) / step⌋ : ℤ) : ℚ) * step = 0 := by
            rw [zero_div, Int.floor_zero]; simp
          rw [h0] at h
          obtain ⟨hs, he⟩ := ih _ _ s e h
          refine ⟨hs, le_trans ?_ he⟩
          exact (div_le_iff₀ hpos).mp (Int.le_ceil (stop / step))
        · rw [if_neg hpos] at h
          by_cases hneg : step < 0
          · rw [if_pos hneg] at h
            have h0 : ((⌈(0 : ℚ) * step⌉ : ℤ) : ℚ) / step = 0 := by
              rw [zero_mul, Int.ceil_zero]; simp
            rw [h0] at h
            obtain ⟨hs, he⟩ := ih _ _ s e h
            refine ⟨hs, le_trans ?_ he⟩
            exact (le_div_iff_of_neg hneg).mpr (Int.floor_le (stop * step))
          · rw [if_neg hneg] at h; simp at h

theorem niceRec_zero_stop : ∀ (fuel : Nat) (start : ℚ) (pres : Option ℚ) (s e : ℚ),
    niceRec fuel start 0 pres = some (s, e) → e = 0 := by
  intro fuel
  induction fuel with
  | zero => intro start pres s e h; simp [niceRec] at h
  | succ fuel ih =>
    intro start pres s e h
    rw [niceRec] at h
    cases hti : tickIncrement start 0 with
    | none => rw [hti] at h; simp at h
    | some step =>
      rw [hti] at h
      dsimp only at h
      by_cases hpre : pres = some step
      · rw [if_pos hpre] at h
        obtain ⟨_, he⟩ := Prod.mk.injEq .. ▸ Option.some.injEq .. ▸ h
        exact he.symm
      · rw [if_neg hpre] at h
        by_cases hpos : 0 < step
        · rw [if_pos hpos] at h
          have h0 : ((⌈(0 : ℚ) / step⌉ : ℤ) : ℚ) * step = 0 := by
            rw [zero_div, Int.ceil_zero]; simp
          rw [h0] at h
          exact ih _ _ s e h
        · rw [if_neg hpos] at h
          by_cases hneg : step < 0
          · rw [if_pos hneg] at h
            have h0 : ((⌊(0 : ℚ) * step⌋ : ℤ) : ℚ) / step = 0 := by
              rw [zero_mul, Int.floor_zero]; simp
            rw [h0] at h
            exact ih _ _ s e h
          · rw [if_neg hneg] at h; simp at h

/-- For `scaleLinear().domain([0, q]).nice()`: the zero endpoint survives, and
when `0 ≤ q` the upper endpoint only moves up (or stays). -/
theorem niceDomain_zero (q : ℚ) :
    (niceDomain 0 q).1 = 0 ∧ (0 ≤ q → q ≤ (niceDomain 0 q).2) := by
  rw [niceDomain]
  by_cases hq : q < 0
  · rw [if_pos hq]
    cases hres : niceRec 10 q 0 none with
    | none => exact ⟨rfl, fun h => absurd h (not_le.mpr hq)⟩
    | some se =>
      obtain ⟨s, e⟩ := se
      have he : e = 0 := niceRec_zero_stop 10 q none s e hres
      exact ⟨he, fun h => absurd h (not_le.mpr hq)⟩
  · rw [if_neg hq]
    cases hres : niceRec 10 0 q none with
    | none => exact ⟨rfl, fun _ => le_refl q⟩
    | some se =>
      obtain ⟨s, e⟩ := se
      obtain ⟨hs, he⟩ := niceRec_zero_start 10 q none s e hres
      exact ⟨hs, fun _ => he⟩

/-! ## Library: `dedupFirst` keeps exactly the first occurrences, in order -/

theorem mem_dedupByKeyAux_self {α : Type} [BEq α] [LawfulBEq α] :
    ∀ (l : List α) (seen : List α) (v : α), v ∈ l → v ∉ seen →
      v ∈ dedupByKeyAux (fun a => a) seen l := by
  intro l
  induction l with
  | nil => intro seen v hv _; simp at hv
  | cons x xs ih =>
    intro seen v hv hseen
    rw [dedupByKeyAux]
    by_cases hx : seen.contains ((fun a => a) x)
    · rw [if_pos hx]
      rcases List.mem_cons.mp hv with rfl | hv
      · exact absurd ((contains_eq_true_iff seen v).mp hx) hseen
      · exact ih seen v hv hseen
    · rw [if_neg hx]
      by_cases hvx : v = x
      · exact hvx ▸ List.mem_cons_self _ _
      · rcases List.mem_cons.mp hv with rfl | hv
        · exact absurd rfl hvx
        · refine List.mem_cons_of_mem _ (ih _ v hv ?_)
          intro hmem
          rcases List.mem_cons.mp hmem with rfl | hmem
          · exact hvx rfl
          · exact hseen hmem

theorem mem_dedupFirst_iff {α : Type} [BEq α] [LawfulBEq α] (l : List α) (v : α) :
    v ∈ dedupFirst l ↔ v ∈ l := by
  constructor
  · exact mem_of_mem_dedupByKey (fun a => a) l v
  · intro hv
    exact mem_dedupByKeyAux_self l [] v hv (List.not_mem_nil v)

theorem nodup_dedupFirst {α : Type} [BEq α] [LawfulBEq α] (l : List α) :
    (dedupFirst l).Nodup := by
  have h := keys_nodup_dedupByKey (fun a => a) l
  rwa [List.map_id'] at h

theorem indexOf_cons_of_ne {α : Type} [BEq α] [LawfulBEq α] {x v : α} (xs : List α)
    (h : v ≠ x) : (x :: xs).indexOf v = xs.indexOf v + 1 := by
  rw [List.indexOf_cons]
  have : (x == v) = false := by
    rcases hbeq : x == v with _ | _
    · rfl
    · exact absurd (beq_iff_eq.mp hbeq).symm h
  rw [this, Bool.cond_false]

/-- The elements of `dedupFirst` appear in the order of their first
occurrences in the input. -/
theorem pairwise_indexOf_dedupByKeyAux {α : Type} [BEq α] [LawfulBEq α] :
    ∀ (l : List α) (seen : List α),
      (dedupByKeyAux (fun a => a) seen l).Pairwise
        (fun v w => l.indexOf v < l.indexOf w) := by
  intro l
  induction l with
  | nil => intro seen; simp [dedupByKeyAux]
  | cons x xs ih =>
    intro seen
    rw [dedupByKeyAux]
    by_cases hx : seen.contains ((fun a => a) x)
    · rw [if_pos hx]
      refine (ih seen).imp_of_mem ?_
      intro v w hv hw hlt
      have hvx : v ≠ x := by
        intro hvx
        exact key_not_seen_of_mem_dedupByKeyAux _ xs seen v hv (hvx ▸
          (contains_eq_true_iff seen x).mp hx)
      have hwx : w ≠ x := by
        intro hwx
        exact key_not_seen_of_mem_dedupByKeyAux _ xs seen w hw (hwx ▸
          (contains_eq_true_iff seen x).mp hx)
      rw [indexOf_cons_of_ne xs hvx, indexOf_cons_of_ne xs hwx]
      exact Nat.succ_lt_succ hlt
    · rw [if_neg hx]
      refine List.pairwise_cons.mpr ⟨?_, ?_⟩
      · intro w hw
        have hwx : w ≠ x := by
          intro hwx
          exact key_not_seen_of_mem_dedupByKeyAux _ xs (x :: seen) w hw
            (hwx ▸ List.mem_cons_self _ _)
        have hx0 : (x :: xs).indexOf x = 0 := by
          rw [List.indexOf_cons, beq_self_eq_true, Bool.cond_true]
        rw [hx0, indexOf_cons_of_ne xs hwx]
        exact Nat.succ_pos _
      · refine (ih (x :: seen)).imp_of_mem ?_
        intro v w hv hw hlt
        have hvx : v ≠ x := by
          intro hvx
          exact key_not_seen_of_mem_dedupByKeyAux _ xs (x :: seen) v hv
            (hvx ▸ List.mem_cons_self _ _)
        have hwx : w ≠ x := by
          intro hwx
          exact key_not_seen_of_mem_dedupByKeyAux _ xs (x :: seen) w hw
            (hwx ▸ List.mem_cons_self _ _)
        rw [indexOf_cons_of_ne xs hvx, indexOf_cons_of_ne xs hwx]
        exact Nat.succ_lt_succ hlt

theorem pairwise_indexOf_dedupFirst {α : Type} [BEq α] [LawfulBEq α] (l : List α) :
    (dedupFirst l).Pairwise (fun v w => l.indexOf v < l.indexOf w) :=
  pairwise_indexOf_dedupByKeyAux l []

/-! ## Structure of successful runs -/

theorem computeSeries_ok (data : List EmissionRecord) (selC : List String)
    (g ind : String) (fu : List (String × List Point))
    (hok : computeSeries data selC g ind = .ok fu) :
    fu = filteredUnique (validPoints data selC g ind) := by
  rw [computeSeries] at hok
  by_cases hall : (filtered data selC g ind).all (fun p => p.date.isSome)
  · rw [if_pos hall] at hok
    exact (Except.ok.injEq .. ▸ hok).symm
  · rw [if_neg hall] at hok
    exact absurd hok (by simp)

theorem updateVisualization_ok (data : List EmissionRecord) (selC : List String)
    (g ind : String) (out : ChartOut)
    (hok : (updateVisualization data selC g ind).2 = .ok out) :
    ∃ fu, computeSeries data selC g ind = .ok fu ∧
      ((fu.isEmpty = true ∧ out = ⟨true, none, none, false, []⟩) ∨
       (fu.isEmpty = false ∧
        out = ⟨true,
          extent (((fu.map (fun s => s.2)).flatten).map (fun p => p.date)),
          (maxQ (((fu.map (fun s => s.2)).flatten).map (fun p => p.emissions))).map
            (fun m => niceDomain 0 m),
          true,
          fu.map (fun s =>
            ⟨s.1, color (getUniqueValues data (fun r => r.country)) s.1,
              sortPoints s.2, s.1⟩)⟩)) := by
  rw [updateVisualization] at hok
  dsimp only at hok
  cases hcs : computeSeries data selC g ind with
  | error e => rw [hcs] at hok; simp at hok
  | ok fu =>
    rw [hcs] at hok
    dsimp only at hok
    refine ⟨fu, rfl, ?_⟩
    by_cases hemp : fu.isEmpty
    · rw [if_pos hemp] at hok
      exact Or.inl ⟨hemp, (Except.ok.injEq .. ▸ hok).symm⟩
    · rw [if_neg hemp] at hok
      exact Or.inr ⟨Bool.eq_false_iff.mpr hemp, (Except.ok.injEq .. ▸ hok).symm⟩

theorem updateVisualization_legend (data : List EmissionRecord) (selC : List String)
    (g ind : String) :
    (updateVisualization data selC g ind).1 =
      selC.map (fun c => (c, color (getUniqueValues data (fun r => r.country)) c)) := by
  rw [updateVisualization]
  dsimp only
  rw [updateLegend]

/-! ## Concrete data used by witnesses and counterexamples -/

def exRecJan : EmissionRecord :=
  ⟨"USA", "CO2", "Power", "Seasonally Adjusted", "2020-01-01T00:00:00.000", 10⟩

def exRecJanDup : EmissionRecord :=
  ⟨"USA", "CO2", "Power", "Seasonally Adjusted", "2020-01-01T00:00:00.000", 99⟩

def exRecApr : EmissionRecord :=
  ⟨"USA", "CO2", "Power", "Seasonally Adjusted", "2020-04-01T00:00:00.000", 20⟩

def exRecAprRaw : EmissionRecord :=
  ⟨"USA", "CO2", "Power", "Not Adjusted", "2020-04-01T00:00:00.000", 55⟩

/-- A record whose `date` fails to parse under `%Y-%m-%dT%H:%M:%S.%L`. -/
def exRecBad : EmissionRecord :=
  ⟨"USA", "CO2", "Power", "Seasonally Adjusted", "2020-01-01", 5⟩

/-- The instant `2020-01-01T00:00:00.000Z` in epoch milliseconds. -/
def tJan : ℤ := 1577836800000

/-- The instant `2020-04-01T00:00:00.000Z` in epoch milliseconds. -/
def tApr : ℤ := 1585699200000

def pJan : Point := ⟨"USA", tJan, 10⟩

def pApr : Point := ⟨"USA", tApr, 20⟩

/-! ## C1: the filter retains exactly the selected, seasonally adjusted rows -/

/-- C1: every point in every series returned by the filter/aggregate
step comes from an input record whose region is a member of
`selectedCountries`, whose gas type equals the selected gas, whose industry
equals the selected industry, and whose seasonal-adjustment flag is the
literal `"Seasonally Adjusted"`; records with any other adjustment value
never contribute a point. -/
theorem series_points_satisfy_filter (data : List EmissionRecord)
    (selC : List String) (g ind : String) (fu : List (String × List Point))
    (c : String) (pts : List Point) (p : Point)
    (hok : computeSeries data selC g ind = .ok fu)
    (hmem : (c, pts) ∈ fu) (hp : p ∈ pts) :
    ∃ r ∈ data, selC.contains r.country = true ∧ r.gasType = g ∧
      r.industry = ind ∧ r.seasonalAdjustment = "Seasonally Adjusted" ∧
      p.country = r.country ∧ parseDate r.date = some p.date ∧
      p.emissions = r.emissions := by
  have hfu := computeSeries_ok data selC g ind fu hok
  subst hfu
  rw [filteredUnique] at hmem
  obtain ⟨c', _, heq⟩ := List.mem_map.mp hmem
  rw [Prod.mk.injEq] at heq
  obtain ⟨rfl, hpts⟩ := heq
  rw [← hpts] at hp
  have hpf := mem_of_mem_dedupByKey _ _ _ hp
  have hpv := (List.mem_filter.mp hpf).1
  rw [validPoints] at hpv
  obtain ⟨raw, hraw, htp⟩ := List.mem_filterMap.mp hpv
  rw [filtered] at hraw
  obtain ⟨r, hrf, hmk⟩ := List.mem_map.mp hraw
  obtain ⟨hr, hpass⟩ := List.mem_filter.mp hrf
  subst hmk
  rw [toPoint, mkRaw] at htp
  obtain ⟨t, hparse, hpt⟩ := Option.map_eq_some'.mp htp
  simp only [passesFilter, Bool.and_eq_true, beq_iff_eq] at hpass
  obtain ⟨⟨⟨h1, h2⟩, h3⟩, h4⟩ := hpass
  subst hpt
  exact ⟨r, hr, h1, h2, h3, h4, rfl, hparse, rfl⟩

/-- C1 witness: in a two-record data set whose second record differs
only in `Seasonal Adjustment = "Not Adjusted"`, the single output point
traces back to a seasonally adjusted record. -/
theorem series_points_satisfy_filter_witness :
    ∃ r ∈ [exRecJan, exRecAprRaw], ["USA"].contains r.country = true ∧
      r.gasType = "CO2" ∧ r.industry = "Power" ∧
      r.seasonalAdjustment = "Seasonally Adjusted" ∧
      pJan.country = r.country ∧ parseDate r.date = some pJan.date ∧
      pJan.emissions = r.emissions :=
  series_points_satisfy_filter [exRecJan, exRecAprRaw] ["USA"] "CO2" "Power"
    [("USA", [pJan])] "USA" [pJan] pJan (by with_unfolding_all rfl)
    (List.mem_cons_self _ _) (List.mem_cons_self _ _)

/-! ## C2: deduplication keys and first-occurrence-wins -/

/-- C2: after deduplication there is at most one series per region and,
within a region's series, at most one point per exact parsed timestamp;
the point kept for a (region, timestamp) pair is the first matching element
of the filtered point list (which lists the filtered records in input
order), i.e. the first record encountered wins, not the last. -/
theorem dedup_unique_first_record_wins (data : List EmissionRecord)
    (selC : List String) (g ind : String) (fu : List (String × List Point))
    (c : String) (pts : List Point) (p : Point)
    (hok : computeSeries data selC g ind = .ok fu)
    (hmem : (c, pts) ∈ fu) (hp : p ∈ pts) :
    (fu.map Prod.fst).Nodup ∧ (pts.map (fun q => q.date)).Nodup ∧
    p.country = c ∧
    (validPoints data selC g ind).find?
      (fun q => q.country == c && q.date == p.date) = some p := by
  have hfu := computeSeries_ok data selC g ind fu hok
  subst hfu
  refine ⟨?_, ?_, ?_, ?_⟩
  · rw [filteredUnique, List.map_map]
    have hid : (Prod.fst ∘ fun c => (c, dedupByKey (fun p => p.date)
        ((validPoints data selC g ind).filter (fun p => p.country == c)))) =
        fun c => c := rfl
    rw [hid, List.map_id']
    exact nodup_dedupFirst _
  · rw [filteredUnique] at hmem
    obtain ⟨c', _, heq⟩ := List.mem_map.mp hmem
    rw [Prod.mk.injEq] at heq
    obtain ⟨rfl, hpts⟩ := heq
    rw [← hpts]
    exact keys_nodup_dedupByKey _ _
  · rw [filteredUnique] at hmem
    obtain ⟨c', _, heq⟩ := List.mem_map.mp hmem
    rw [Prod.mk.injEq] at heq
    obtain ⟨rfl, hpts⟩ := heq
    rw [← hpts] at hp
    have hpf := mem_of_mem_dedupByKey _ _ _ hp
    exact beq_iff_eq.mp (List.mem_filter.mp hpf).2
  · rw [filteredUnique] at hmem
    obtain ⟨c', _, heq⟩ := List.mem_map.mp hmem
    rw [Prod.mk.injEq] at heq
    obtain ⟨rfl, hpts⟩ := heq
    rw [← hpts] at hp
    have hfind := find?_eq_of_mem_dedupByKey (fun q => q.date) _ p hp
    have hconv := find?_filter_eq_find?_and (fun q => q.country == c')
      (fun z => z.date == p.date) (validPoints data selC g ind)
    rw [hconv] at hfind
    exact hfind

/-- C2 witness: on the spec's duplicate-timestamp scenario (two records
at the same timestamp with emissions 10 and 99, then one later record), the
kept point for the duplicated timestamp is the first record's, keys are
unique, and the `find?` characterization holds concretely. -/
theorem dedup_unique_first_record_wins_witness :
    ((([("USA", [pJan, pApr])] : List (String × List Point)).map Prod.fst).Nodup) ∧
    (([pJan, pApr].map (fun q => q.date)).Nodup) ∧
    pJan.country = "USA" ∧
    (validPoints [exRecJan, exRecJanDup, exRecApr] ["USA"] "CO2" "Power").find?
      (fun q => q.country == "USA" && q.date == pJan.date) = some pJan :=
  dedup_unique_first_record_wins [exRecJan, exRecJanDup, exRecApr] ["USA"] "CO2"
    "Power" [("USA", [pJan, pApr])] "USA" [pJan, pApr] pJan
    (by with_unfolding_all rfl) (List.mem_cons_self _ _) (List.mem_cons_self _ _)

/-! ## C3: where the sort actually happens -/

/-- Records in descending date order. -/
def exDataDesc : List EmissionRecord := [exRecApr, exRecJan]

/-- The filter/aggregate output for `exDataDesc`: first-encounter order,
i.e. descending timestamps. -/
def exFuDesc : List (String × List Point) := [("USA", [pApr, pJan])]

/-- C3 counterexample: the series returned by the filter/aggregate step
(`filteredUnique`, before any rendering) is in first-encounter order, not
sorted: with input records in descending date order the returned series has
strictly decreasing timestamps. -/
theorem aggregate_series_not_sorted :
    computeSeries exDataDesc ["USA"] "CO2" "Power" = .ok exFuDesc ∧
    ("USA", [pApr, pJan]) ∈ exFuDesc ∧
    ¬ ([pApr, pJan].map (fun q => q.date)).Pairwise (fun a b => a ≤ b) := by
  refine ⟨by with_unfolding_all rfl, List.mem_cons_self _ _, ?_⟩
  intro hpw
  rcases List.pairwise_cons.mp hpw with ⟨hc, _⟩
  have h := hc pJan.date (List.mem_cons_self _ _)
  have h2 : tApr ≤ tJan := h
  rw [tApr, tJan] at h2
  omega

/-- C3, amended: sorting happens in the renderer, not in the
filter/aggregate step — every line path handed to the line generator by
`updateVisualization` carries its points sorted by non-decreasing
timestamp (`values.sort((a, b) => a.date - b.date)` runs while drawing). -/
theorem renderer_sorts_each_series (data : List EmissionRecord)
    (selC : List String) (g ind : String) (out : ChartOut) (l : LinePath)
    (hok : (updateVisualization data selC g ind).2 = .ok out)
    (hl : l ∈ out.lines) :
    l.points.Pairwise (fun a b => a.date ≤ b.date) := by
  obtain ⟨fu, _, hcase⟩ := updateVisualization_ok data selC g ind out hok
  rcases hcase with ⟨_, rfl⟩ | ⟨_, rfl⟩
  · simp at hl
  · dsimp only at hl
    obtain ⟨s, _, rfl⟩ := List.mem_map.mp hl
    exact pairwise_sortPoints s.2

/-- C3 amended-claim witness: on the descending-date example the drawn line
carries the ascending point order. -/
theorem renderer_sorts_each_series_witness :
    (⟨"USA", "#4e79a7", [pJan, pApr], "USA"⟩ : LinePath).points.Pairwise
      (fun a b => a.date ≤ b.date) :=
  renderer_sorts_each_series exDataDesc ["USA"] "CO2" "Power"
    ⟨true, some (tJan, tApr), some (0, 20), true,
      [⟨"USA", "#4e79a7", [pJan, pApr], "USA"⟩]⟩
    ⟨"USA", "#4e79a7", [pJan, pApr], "USA"⟩
    (by with_unfolding_all rfl) (List.mem_cons_self _ _)

/-! ## C4: distinct selector values -/

/-- C4: `getUniqueValues` returns a duplicate-free list containing
exactly the values occurring in the input, and its elements are ordered by
the positions of their first occurrences in the input (first-seen order,
not sorted). -/
theorem getUniqueValues_nodup_first_seen (data : List EmissionRecord)
    (key : EmissionRecord → String) :
    (getUniqueValues data key).Nodup ∧
    (∀ v, v ∈ getUniqueValues data key ↔ v ∈ data.map key) ∧
    (getUniqueValues data key).Pairwise
      (fun v w => (data.map key).indexOf v < (data.map key).indexOf w) :=
  ⟨nodup_dedupFirst _, fun v => mem_dedupFirst_iff _ v, pairwise_indexOf_dedupFirst _⟩

/-! ## C5: the axis domains -/

/-- Sorting each series does not change which points are drawn. -/
theorem mem_flatten_map_sortPoints (f : String × List Point → LinePath)
    (hf : ∀ s, (f s).points = sortPoints s.2)
    (fu : List (String × List Point)) (p : Point) :
    p ∈ ((fu.map f).map (fun l => l.points)).flatten ↔
      p ∈ (fu.map (fun s => s.2)).flatten := by
  rw [List.map_map]
  simp only [List.mem_flatten, List.mem_map, Function.comp]
  constructor
  · rintro ⟨pts, ⟨s, hs, rfl⟩, hp⟩
    rw [hf s] at hp
    exact ⟨s.2, ⟨s, hs, rfl⟩, (mem_sortPoints p s.2).mp hp⟩
  · rintro ⟨pts, ⟨s, hs, rfl⟩, hp⟩
    exact ⟨(f s).points, ⟨s, hs, rfl⟩, (hf s).symm ▸ (mem_sortPoints p s.2).mpr hp⟩

/-- C5, amended: when axes are drawn, the horizontal time domain is
exactly the attained minimum and maximum timestamp over all drawn points;
the vertical domain starts at zero (zero is always an endpoint) and, for
the nonnegative data the chart is built for, its top bounds every drawn
emission value from above — but it is the `nice()`-rounded value, not
necessarily the maximum itself. -/
theorem scale_domains (data : List EmissionRecord) (selC : List String)
    (g ind : String) (out : ChartOut) (m M : ℤ) (lo hi : ℚ) (t : ℤ) (e : ℚ)
    (hok : (updateVisualization data selC g ind).2 = .ok out)
    (hx : out.xDomain = some (m, M))
    (hy : out.yDomain = some (lo, hi))
    (ht : t ∈ (allLinePoints out).map (fun p => p.date))
    (he : e ∈ (allLinePoints out).map (fun p => p.emissions)) :
    m ∈ (allLinePoints out).map (fun p => p.date) ∧
    M ∈ (allLinePoints out).map (fun p => p.date) ∧
    m ≤ t ∧ t ≤ M ∧ lo = 0 ∧ (0 ≤ e → e ≤ hi) := by
  obtain ⟨fu, _, hcase⟩ := updateVisualization_ok data selC g ind out hok
  rcases hcase with ⟨_, hout⟩ | ⟨_, hout⟩
  · rw [hout] at hx; simp at hx
  · have hlines : out.lines = fu.map (fun s =>
        ⟨s.1, color (getUniqueValues data (fun r => r.country)) s.1,
          sortPoints s.2, s.1⟩) := by rw [hout]
    have hxd : out.xDomain =
        extent (((fu.map (fun s => s.2)).flatten).map (fun p => p.date)) := by
      rw [hout]
    have hyd : out.yDomain =
        (maxQ (((fu.map (fun s => s.2)).flatten).map (fun p => p.emissions))).map
          (fun v => niceDomain 0 v) := by
      rw [hout]
    rw [hxd] at hx
    rw [hyd] at hy
    have hpts : ∀ q : Point,
        q ∈ allLinePoints out ↔ q ∈ (fu.map (fun s => s.2)).flatten := by
      intro q
      rw [allLinePoints, hlines]
      exact mem_flatten_map_sortPoints _ (fun s => rfl) fu q
    have hdates : ∀ u : ℤ,
        u ∈ (allLinePoints out).map (fun p => p.date) ↔
          u ∈ ((fu.map (fun s => s.2)).flatten).map (fun p => p.date) := by
      intro u
      simp only [List.mem_map]
      constructor
      · rintro ⟨q, hq, rfl⟩; exact ⟨q, (hpts q).mp hq, rfl⟩
      · rintro ⟨q, hq, rfl⟩; exact ⟨q, (hpts q).mpr hq, rfl⟩
    have hems : ∀ u : ℚ,
        u ∈ (allLinePoints out).map (fun p => p.emissions) ↔
          u ∈ ((fu.map (fun s => s.2)).flatten).map (fun p => p.emissions) := by
      intro u
      simp only [List.mem_map]
      constructor
      · rintro ⟨q, hq, rfl⟩; exact ⟨q, (hpts q).mp hq, rfl⟩
      · rintro ⟨q, hq, rfl⟩; exact ⟨q, (hpts q).mpr hq, rfl⟩
    obtain ⟨hmmem, hMmem, hbound⟩ := extent_spec _ m M hx
    obtain ⟨q0, hmax, hnice⟩ := Option.map_eq_some'.mp hy
    obtain ⟨hq0mem, hq0bound⟩ := maxQ_spec _ q0 hmax
    obtain ⟨hlo, hhi⟩ := niceDomain_zero q0
    rw [hnice] at hlo hhi
    refine ⟨(hdates m).mpr hmmem, (hdates M).mpr hMmem, ?_, ?_, hlo, ?_⟩
    · exact (hbound t ((hdates t).mp ht)).1
    · exact (hbound t ((hdates t).mp ht)).2
    · intro he0
      have heq0 : e ≤ q0 := hq0bound e ((hems e).mp he)
      exact le_trans heq0 (hhi (le_trans he0 heq0))

/-- A record whose emissions maximum (97) is not a tick-round number. -/
def exRec97 : EmissionRecord :=
  ⟨"USA", "CO2", "Power", "Seasonally Adjusted", "2020-01-01T00:00:00.000", 97⟩

/-- The chart drawn for `[exRec97]`. -/
def exOut97 : ChartOut :=
  ⟨true, some (tJan, tJan), some (0, 100), true,
    [⟨"USA", "#4e79a7", [⟨"USA", tJan, 97⟩], "USA"⟩]⟩

/-- C5 counterexample: the maximum drawn emission value is 97, but the
vertical domain is `[0, 100]` — `.nice()` rounds the top of the domain up
to a tick boundary, so the vertical domain does not run to the maximum
emissions value as claimed. -/
theorem vertical_domain_not_max :
    (updateVisualization [exRec97] ["USA"] "CO2" "Power").2 = .ok exOut97 ∧
    maxQ ((allLinePoints exOut97).map (fun p => p.emissions)) = some 97 ∧
    exOut97.yDomain = some (0, 100) ∧ (100 : ℚ) ≠ 97 := by
  refine ⟨by with_unfolding_all rfl, by with_unfolding_all rfl, rfl, by norm_num⟩

/-- C5 amended-claim witness: concrete instantiation on `[exRec97]`. -/
theorem scale_domains_witness :
    tJan ∈ (allLinePoints exOut97).map (fun p => p.date) ∧
    tJan ∈ (allLinePoints exOut97).map (fun p => p.date) ∧
    tJan ≤ tJan ∧ tJan ≤ tJan ∧ (0 : ℚ) = 0 ∧ ((0 : ℚ) ≤ 97 → (97 : ℚ) ≤ 100) :=
  scale_domains [exRec97] ["USA"] "CO2" "Power" exOut97 tJan tJan 0 100 tJan 97
    (by with_unfolding_all rfl) rfl rfl
    (by with_unfolding_all decide) (by with_unfolding_all decide)

/-! ## C6: the empty-selection render path -/

/-- C6: whenever the filtered/deduplicated result is empty, the render
step clears the chart group, draws nothing else (no axes, no scale domains,
no lines) and returns normally — no exception. -/
theorem empty_result_clears_chart (data : List EmissionRecord)
    (selC : List String) (g ind : String)
    (hok : computeSeries data selC g ind = .ok []) :
    (updateVisualization data selC g ind).2 =
      .ok ⟨true, none, none, false, []⟩ := by
  rw [updateVisualization]
  dsimp only
  rw [hok]
  rfl

/-- C6 witness: selecting a gas type absent from the data yields the
cleared, empty chart. -/
theorem empty_result_clears_chart_witness :
    (updateVisualization exDataDesc ["USA"] "CH4" "Power").2 =
      .ok ⟨true, none, none, false, []⟩ :=
  empty_result_clears_chart exDataDesc ["USA"] "CH4" "Power"
    (by with_unfolding_all rfl)

/-! ## C7: the loader never propagates failure -/

/-- C7: `loadEmissionData` either returns the parsed record sequence
(fetch and JSON decode succeeded, nothing logged) or, on any failure,
logs the error and returns the empty sequence; the result type is total,
so no failure reaches the caller. -/
theorem loader_fail_soft (o : FetchOutcome) :
    (∃ rs, o = .success rs ∧ loadEmissionData o = ⟨rs, false⟩) ∨
    (o = .failure ∧ loadEmissionData o = ⟨[], true⟩) := by
  cases o with
  | success rs => exact Or.inl ⟨rs, rfl, rfl⟩
  | failure => exact Or.inr ⟨rfl, rfl⟩

/-! ## C8: the data-URL choice -/

/-- C8 counterexample: `example.com` is not a local host, yet the
loader chooses the local relative path, contradicting "the fixed remote
static URL otherwise (for every non-local hostname)". -/
theorem nonlocal_host_gets_local_path :
    isLocalhost "example.com" = false ∧
    dataUrl "example.com" = localPath ∧
    localPath ≠ ghPagesPath := by
  refine ⟨by with_unfolding_all rfl, by with_unfolding_all rfl, ?_⟩
  intro h
  exact absurd (congrArg String.length h) (by decide)

/-- C8, amended: the remote static URL is chosen exactly for hostnames
that end with `"github.io"` (a suffix match, not an exact hostname match)
and are not one of the exact local hostnames `"localhost"`, `"127.0.0.1"`,
`""`; every other hostname — local or not — gets the local relative
path. -/
theorem dataUrl_characterization (host : String) :
    (dataUrl host = ghPagesPath ↔
      (endsWith host "github.io" && !isLocalhost host) = true) ∧
    (dataUrl host = localPath ↔
      (endsWith host "github.io" && !isLocalhost host) = false) := by
  have hne : ghPagesPath ≠ localPath := by
    intro h
    exact absurd (congrArg String.length h) (by decide)
  rw [dataUrl]
  by_cases hc : (endsWith host "github.io" && !isLocalhost host) = true
  · rw [if_pos hc, hc]
    exact ⟨⟨fun _ => rfl, fun _ => rfl⟩,
      ⟨fun h => absurd h hne, fun h => by simp at h⟩⟩
  · rw [if_neg hc]
    have hc' : (endsWith host "github.io" && !isLocalhost host) = false :=
      Bool.eq_false_iff.mpr hc
    rw [hc']
    exact ⟨⟨fun h => absurd h.symm hne, fun h => by simp at h⟩,
      ⟨fun _ => rfl, fun _ => rfl⟩⟩

/-! ## C9: color stability across redraws -/

theorem line_stroke_eq (data : List EmissionRecord) (selC : List String)
    (g ind : String) (out : ChartOut) (l : LinePath)
    (hok : (updateVisualization data selC g ind).2 = .ok out)
    (hl : l ∈ out.lines) :
    l.stroke = color (getUniqueValues data (fun r => r.country)) l.country := by
  obtain ⟨fu, _, hcase⟩ := updateVisualization_ok data selC g ind out hok
  rcases hcase with ⟨_, rfl⟩ | ⟨_, rfl⟩
  · simp at hl
  · dsimp only at hl
    obtain ⟨s, _, rfl⟩ := List.mem_map.mp hl
    rfl

/-- C9: the region→color assignment is the ordinal scale built once at
startup over the full distinct-region list of the loaded data; every drawn
line's stroke and every legend swatch equals that fixed assignment at its
region, so the color of a region is identical across any two redraws, no
matter which regions, gas or industry are selected. -/
theorem region_color_assignment_stable (data : List EmissionRecord)
    (sel1 sel2 : List String) (g1 i1 g2 i2 : String) (out1 out2 : ChartOut)
    (l1 l2 : LinePath) (ent : String × String)
    (h1 : (updateVisualization data sel1 g1 i1).2 = .ok out1)
    (h2 : (updateVisualization data sel2 g2 i2).2 = .ok out2)
    (hl1 : l1 ∈ out1.lines) (hl2 : l2 ∈ out2.lines)
    (hent : ent ∈ (updateVisualization data sel1 g1 i1).1) :
    l1.stroke = color (getUniqueValues data (fun r => r.country)) l1.country ∧
    (l1.country = l2.country → l1.stroke = l2.stroke) ∧
    ent.2 = color (getUniqueValues data (fun r => r.country)) ent.1 ∧
    (ent.1 = l2.country → ent.2 = l2.stroke) := by
  have hs1 := line_stroke_eq data sel1 g1 i1 out1 l1 h1 hl1
  have hs2 := line_stroke_eq data sel2 g2 i2 out2 l2 h2 hl2
  have hlegend : ent.2 = color (getUniqueValues data (fun r => r.country)) ent.1 := by
    rw [updateVisualization_legend] at hent
    obtain ⟨c, _, heq⟩ := List.mem_map.mp hent
    rw [← heq]
  refine ⟨hs1, ?_, hlegend, ?_⟩
  · intro hc
    rw [hs1, hs2, hc]
  · intro hc
    rw [hlegend, hs2, hc]

def exRecCanApr : EmissionRecord :=
  ⟨"Canada", "CO2", "Power", "Seasonally Adjusted", "2020-04-01T00:00:00.000", 7⟩

def exDataTwo : List EmissionRecord := [exRecJan, exRecCanApr]

def pCan : Point := ⟨"Canada", tApr, 7⟩

def lineCan : LinePath := ⟨"Canada", "#f28e2c", [pCan], "Canada"⟩

/-- Both regions selected. -/
def exOutTwo1 : ChartOut :=
  ⟨true, some (tJan, tApr), some (0, 10), true,
    [⟨"USA", "#4e79a7", [pJan], "USA"⟩, lineCan]⟩

/-- Only Canada selected: its line keeps the same color. -/
def exOutTwo2 : ChartOut :=
  ⟨true, some (tApr, tApr), some (0, 7), true, [lineCan]⟩

theorem computeSeries_exDataTwo_both :
    computeSeries exDataTwo ["USA", "Canada"] "CO2" "Power" =
      .ok [("USA", [pJan]), ("Canada", [pCan])] := by
  with_unfolding_all rfl

theorem updateVisualization_exDataTwo_both :
    (updateVisualization exDataTwo ["USA", "Canada"] "CO2" "Power").2 =
      .ok exOutTwo1 := by
  rw [updateVisualization]
  dsimp only
  rw [computeSeries_exDataTwo_both]
  with_unfolding_all rfl

theorem computeSeries_exDataTwo_can :
    computeSeries exDataTwo ["Canada"] "CO2" "Power" = .ok [("Canada", [pCan])] := by
  with_unfolding_all rfl

theorem updateVisualization_exDataTwo_can :
    (updateVisualization exDataTwo ["Canada"] "CO2" "Power").2 = .ok exOutTwo2 := by
  rw [updateVisualization]
  dsimp only
  rw [computeSeries_exDataTwo_can]
  with_unfolding_all rfl

/-- C9 witness: Canada keeps stroke `#f28e2c` whether both regions or
only Canada are selected. -/
theorem region_color_assignment_stable_witness :
    lineCan.stroke = color (getUniqueValues exDataTwo (fun r => r.country))
      lineCan.country ∧
    (lineCan.country = lineCan.country → lineCan.stroke = lineCan.stroke) ∧
    ("Canada", "#f28e2c").2 =
      color (getUniqueValues exDataTwo (fun r => r.country))
        ("Canada", "#f28e2c").1 ∧
    (("Canada", "#f28e2c").1 = lineCan.country →
      ("Canada", "#f28e2c").2 = lineCan.stroke) :=
  region_color_assignment_stable exDataTwo ["USA", "Canada"] ["Canada"]
    "CO2" "Power" "CO2" "Power" exOutTwo1 exOutTwo2 lineCan lineCan
    ("Canada", "#f28e2c")
    updateVisualization_exDataTwo_both updateVisualization_exDataTwo_can
    (by decide) (by decide)
    (by rw [updateVisualization_legend]; with_unfolding_all decide)

/-! ## C10: unparseable dates crash the recompute -/

/-- C10: a record that passes the region/gas/industry/adjustment filter
but whose `date` string does not match `%Y-%m-%dT%H:%M:%S.%L` makes the
recompute step fail with an error — `parseDate` yields `null` and
`d.date.getTime()` is invoked on it inside the rollup — instead of the
record being skipped or excluded from the output. -/
theorem unparseable_date_throws (data : List EmissionRecord)
    (selC : List String) (g ind : String) (r : EmissionRecord)
    (hr : r ∈ data) (hpass : passesFilter selC g ind r = true)
    (hbad : parseDate r.date = none) :
    (updateVisualization data selC g ind).2 = .error () := by
  have hcs : computeSeries data selC g ind = .error () := by
    rw [computeSeries]
    have hmem : mkRaw r ∈ filtered data selC g ind := by
      rw [filtered]
      exact List.mem_map.mpr ⟨r, List.mem_filter.mpr ⟨hr, hpass⟩, rfl⟩
    have hall : ¬ ((filtered data selC g ind).all (fun p => p.date.isSome) = true) := by
      intro hall
      have hsome := List.all_eq_true.mp hall (mkRaw r) hmem
      rw [mkRaw] at hsome
      dsimp only at hsome
      rw [hbad] at hsome
      simp at hsome
    rw [if_neg hall]
  rw [updateVisualization]
  dsimp only
  rw [hcs]

/-- C10 witness: the date `"2020-01-01"` (no time component) passes the
filter but fails to parse, and the recompute errors. -/
theorem unparseable_date_throws_witness :
    (updateVisualization [exRecBad] ["USA"] "CO2" "Power").2 = .error () :=
  unparseable_date_throws [exRecBad] ["USA"] "CO2" "Power" exRecBad
    (List.mem_cons_self _ _) (by with_unfolding_all rfl)
    (by with_unfolding_all rfl)

end P3
